import Mathlib

/-!
Verification of the masonry wrapper component.

This file shallowly embeds the two algorithmic parts of the repository:

* `getColumnsCount` from src/lib/ResponsiveMasonry.tsx — resolves a column
  count from a viewport width and a breakpoint table;
* `diffDomChildren` and `performLayout` from src/lib/index.tsx — the DOM
  child-list reconciliation and the sequence of layout-engine calls
  derived from it.

DOM nodes are modelled as natural-number identifiers.  Whether a node has a
live `parentNode` is an `attached : Nat → Bool` oracle.  A breakpoint table
(a JS object with numeric keys) is an association list `List (Nat × Nat)`;
since JS objects cannot repeat a key, theorems assume the key list has no
duplicates.  JS mutation of local variables is rendered as sequential
`let`-bindings, and `Array.prototype.indexOf` is rendered exactly, with its
`-1` not-found result, as `jsIndexOf` over `Int`.
-/

namespace RMC

/-- JS `Array.prototype.indexOf` on node ids: the index of the first
occurrence of `x`, or `-1` when `x` is absent. -/
def jsIndexOf (x : Nat) : List Nat → Int
  | [] => -1
  | y :: ys =>
    if y = x then 0
    else if jsIndexOf x ys = -1 then -1 else jsIndexOf x ys + 1

/-- The record returned by `diffDomChildren` (src/lib/index.tsx, `DiffResult`).
The `old` and `new` fields of the source are marked "Not used" there and are
omitted here. -/
structure DiffResult where
  removed : List Nat
  appended : List Nat
  prepended : List Nat
  moved : List Nat
  forceItemReload : Bool
deriving Repr, DecidableEq

/-- The stateful `filter` computing `prepended` in `diffDomChildren`:
`beginningIndex` starts at 0 and is incremented each time a new child's
position in `currentDomChildren` equals it. -/
def prependedLoop (currentDomChildren : List Nat) :
    List Nat → Int → List Nat
  | [], _ => []
  | newChild :: rest, beginningIndex =>
    if beginningIndex = jsIndexOf newChild currentDomChildren then
      newChild :: prependedLoop currentDomChildren rest (beginningIndex + 1)
    else
      prependedLoop currentDomChildren rest beginningIndex

/-- `diffDomChildren` (src/lib/index.tsx lines 226–313).  Inputs are the
retained `latestKnownDomChildren`, the freshly enumerated
`currentDomChildren`, and the attachment oracle.  Returns the `DiffResult`
together with the new value stored into `latestKnownDomChildren`
(line 302: always `currentDomChildren`). -/
def diffDomChildren (attached : Nat → Bool)
    (latestKnownDomChildren currentDomChildren : List Nat) :
    DiffResult × List Nat :=
  let knownChildrenStillAttached := latestKnownDomChildren.filter attached
  let forceItemReload :=
    if knownChildrenStillAttached.length ≠ latestKnownDomChildren.length
      then true else false
  let removed := knownChildrenStillAttached.filter
    (fun attachedKnownChild =>
      decide (jsIndexOf attachedKnownChild currentDomChildren = -1))
  let newDomChildren := currentDomChildren.filter
    (fun currentChild =>
      decide (jsIndexOf currentChild knownChildrenStillAttached = -1))
  let prepended := prependedLoop currentDomChildren newDomChildren 0
  let appended := newDomChildren.filter
    (fun el => decide (jsIndexOf el prepended = -1))
  let moved :=
    if removed.length = 0 then
      (knownChildrenStillAttached.enum.filter
        (fun p => decide ((p.1 : Int) ≠ jsIndexOf p.2 currentDomChildren))).map
        Prod.snd
    else []
  ({ removed := removed, appended := appended, prepended := prepended,
     moved := moved, forceItemReload := forceItemReload },
   currentDomChildren)

/-- One call to the external layout engine, as issued by `performLayout`. -/
inductive EngineCall where
  | remove (els : List Nat)
  | appended (els : List Nat)
  | prepended (els : List Nat)
  | reloadItems
  | layout
deriving Repr, DecidableEq

/-- `performLayout` (src/lib/index.tsx lines 315–355) in the Active state
(the engine instance exists): runs `diffDomChildren` and issues engine
calls in source order.  Returns the call trace and the updated retained
child list.  The sequential `reloadItems` flags mirror the source's
mutation of the local `reloadItems`. -/
def performLayout (attached : Nat → Bool) (known current : List Nat) :
    List EngineCall × List Nat :=
  let dk := diffDomChildren attached known current
  let diff := dk.1
  let reloadItems1 := diff.forceItemReload || decide (0 < diff.moved.length)
  let removeCalls :=
    if 0 < diff.removed.length then [EngineCall.remove diff.removed] else []
  let reloadItems2 := reloadItems1 || decide (0 < diff.removed.length)
  let appendedCalls :=
    if 0 < diff.appended.length then [EngineCall.appended diff.appended]
    else []
  let reloadItems3 := reloadItems2 ||
    (decide (0 < diff.appended.length) && decide (diff.prepended.length = 0))
  let prependedCalls :=
    if 0 < diff.prepended.length then [EngineCall.prepended diff.prepended]
    else []
  let reloadCalls := if reloadItems3 then [EngineCall.reloadItems] else []
  ((removeCalls ++ appendedCalls ++ prependedCalls ++ reloadCalls) ++
    [EngineCall.layout], dk.2)

/-- The call is `masonry.remove`. -/
def isRemoveCall : EngineCall → Prop
  | EngineCall.remove _ => True
  | _ => False

/-- The call is an insertion (`masonry.appended` or `masonry.prepended`). -/
def isInsertCall : EngineCall → Prop
  | EngineCall.appended _ => True
  | EngineCall.prepended _ => True
  | _ => False

/-- The call is `masonry.appended`. -/
def isAppendedCall : EngineCall → Prop
  | EngineCall.appended _ => True
  | _ => False

/-- The call is `masonry.prepended`. -/
def isPrependedCall : EngineCall → Prop
  | EngineCall.prepended _ => True
  | _ => False

/-- JS `breakPoints[breakPoint]` lookup.  In `getColumnsCount` the key is
always drawn from `Object.keys(breakPoints)`, so the lookup always
succeeds; the default is never reached. -/
def lookupD (breakPoints : List (Nat × Nat)) (k : Nat) : Nat :=
  (breakPoints.lookup k).getD 0

/-- The `for … of` loop of `getColumnsCount` with its `break`: walks the
sorted key array, overwriting `columns` while keys stay ≤ `width`. -/
def gccLoop (breakPoints : List (Nat × Nat)) (width : Nat) :
    List Nat → Nat → Nat
  | [], columns => columns
  | breakPoint :: rest, columns =>
    if breakPoint ≤ width then
      gccLoop breakPoints width rest (lookupD breakPoints breakPoint)
    else columns

/-- `Object.keys(breakPoints).map(Number).sort((a, b) => a - b)`: the keys
in ascending numeric order (modelled by a stable sort, as JS `sort` is). -/
def sortedKeys (breakPoints : List (Nat × Nat)) : List Nat :=
  List.insertionSort (· ≤ ·) (breakPoints.map Prod.fst)

/-- `getColumnsCount` (src/lib/ResponsiveMasonry.tsx lines 43–62). -/
def getColumnsCount (width : Nat) (breakPoints : List (Nat × Nat)) : Nat :=
  gccLoop breakPoints width (sortedKeys breakPoints) 1

/-- The breakpoint table of the spec's worked scenario. -/
def exampleTable : List (Nat × Nat) := [(300, 2), (500, 3), (700, 5), (900, 6)]

/-! ### Basic facts about the JS `indexOf` model -/

/-- `jsIndexOf` returns `-1` or a non-negative index. -/
theorem jsIndexOf_nonneg_or (x : Nat) (l : List Nat) :
    jsIndexOf x l = -1 ∨ 0 ≤ jsIndexOf x l := by
  induction l with
  | nil => left; rfl
  | cons y ys ih =>
    simp only [jsIndexOf]
    by_cases h : y = x
    · right; simp [h]
    · rw [if_neg h]
      by_cases h3 : jsIndexOf x ys = -1
      · left; rw [if_pos h3]
      · rw [if_neg h3]
        rcases ih with h2 | h2
        · exact absurd h2 h3
        · right; omega

/-- `jsIndexOf` returns `-1` exactly on absent elements. -/
theorem jsIndexOf_eq_neg_one_iff (x : Nat) (l : List Nat) :
    jsIndexOf x l = -1 ↔ x ∉ l := by
  induction l with
  | nil => simp [jsIndexOf]
  | cons y ys ih =>
    simp only [jsIndexOf, List.mem_cons]
    by_cases h : y = x
    · subst h; simp
    · have hne : ¬ x = y := fun hxy => h hxy.symm
      rw [if_neg h]
      by_cases h2 : jsIndexOf x ys = -1
      · rw [if_pos h2]
        simp [ih.mp h2, hne]
      · have h3 : 0 ≤ jsIndexOf x ys := (jsIndexOf_nonneg_or x ys).resolve_left h2
        have hx : x ∈ ys := by
          by_contra hc
          exact h2 (ih.mpr hc)
        rw [if_neg h2]
        simp only [hne, hx, or_true, not_true_eq_false, iff_false]
        omega

/-- The index of the first occurrence after a duplicate-free prelude. -/
theorem jsIndexOf_append_cons (x : Nat) (suf : List Nat) :
    ∀ pre : List Nat, x ∉ pre →
      jsIndexOf x (pre ++ x :: suf) = pre.length := by
  intro pre
  induction pre with
  | nil => intro _; simp [jsIndexOf]
  | cons y ys ih =>
    intro h
    have hxy : ¬ y = x := fun e => h (e ▸ List.mem_cons_self y ys)
    have hx : x ∉ ys := fun hm => h (List.mem_cons_of_mem _ hm)
    have hne : jsIndexOf x (ys ++ x :: suf) ≠ -1 := by
      rw [ih hx]; omega
    rw [List.cons_append, jsIndexOf, if_neg hxy, if_neg hne, ih hx,
      List.length_cons]
    push_cast
    ring

/-- In a duplicate-free list the element at position `i` indexes back to
`i`. -/
theorem jsIndexOf_getElem :
    ∀ {l : List Nat}, l.Nodup → ∀ i (hi : i < l.length),
      jsIndexOf l[i] l = i := by
  intro l
  induction l with
  | nil => intro _ i hi; simp at hi
  | cons y ys ih =>
    intro hnd i hi
    rcases List.nodup_cons.mp hnd with ⟨hy, hnd2⟩
    cases i with
    | zero => simp [jsIndexOf]
    | succ n =>
      have hn : n < ys.length := by simpa using hi
      have hmem : ys[n] ∈ ys := List.getElem_mem hn
      have hne : ¬ y = ys[n] := fun e => hy (e ▸ hmem)
      have hih : jsIndexOf ys[n] ys = n := ih hnd2 n hn
      have hnneg : jsIndexOf ys[n] ys ≠ -1 := by rw [hih]; omega
      simp only [List.getElem_cons_succ, jsIndexOf, if_neg hne, if_neg hnneg,
        hih]
      push_cast
      ring

/-! ### The prepend-classification loop on an all-new child list -/

/-- When every current child is new (`known` empty) and children are
duplicate-free, the running-counter loop accepts every child: walking the
suffix `l` of `C` with the counter at the offset `pre.length` returns all
of `l`. -/
theorem prependedLoop_all {C : List Nat} (hnd : C.Nodup) :
    ∀ (l pre : List Nat), C = pre ++ l →
      prependedLoop C l (pre.length : Int) = l := by
  intro l
  induction l with
  | nil => intro pre _; rfl
  | cons x rest ih =>
    intro pre h
    have hx : x ∉ pre := by
      subst h
      rcases List.nodup_append.mp hnd with ⟨-, -, hdisj⟩
      intro hm
      exact hdisj hm (List.mem_cons_self x rest)
    have hidx : jsIndexOf x C = (pre.length : Int) := by
      rw [h]; exact jsIndexOf_append_cons x rest pre hx
    have h2 : C = (pre ++ [x]) ++ rest := by rw [h]; simp
    have hrec := ih (pre ++ [x]) h2
    have hlen : (((pre ++ [x]).length : Nat) : Int) = (pre.length : Int) + 1 := by
      simp
    rw [hlen] at hrec
    simp only [prependedLoop, hidx, if_pos rfl]
    rw [hrec]
    simp

/-! ### Lookup and sorted keys -/

/-- With duplicate-free keys (a JS object cannot repeat a key), `lookup`
finds exactly the stored value. -/
theorem lookup_eq_some_of_mem :
    ∀ {T : List (Nat × Nat)}, (T.map Prod.fst).Nodup →
      ∀ {k v : Nat}, (k, v) ∈ T → T.lookup k = some v := by
  intro T
  induction T with
  | nil => intro _ k v h; simp at h
  | cons kv T ih =>
    intro hnd k v h
    obtain ⟨a, b⟩ := kv
    have hnd1 : (a :: T.map Prod.fst).Nodup := hnd
    rcases List.nodup_cons.mp hnd1 with ⟨ha, hnd2⟩
    rcases List.mem_cons.mp h with h1 | h1
    · rcases Prod.mk.inj h1 with ⟨rfl, rfl⟩
      simp [List.lookup]
    · have hk : k ∈ T.map Prod.fst := List.mem_map_of_mem Prod.fst h1
      have hne : ¬ (k == a) = true := by
        simp only [beq_iff_eq]
        intro e
        exact ha (e ▸ hk)
      simp only [List.lookup, hne]
      exact ih hnd2 h1

/-- The sorted key array is sorted. -/
theorem sortedKeys_sorted (T : List (Nat × Nat)) :
    List.Sorted (· ≤ ·) (sortedKeys T) :=
  List.sorted_insertionSort _ _

/-- Membership in the sorted key array is membership among the keys. -/
theorem mem_sortedKeys {T : List (Nat × Nat)} {k : Nat} :
    k ∈ sortedKeys T ↔ k ∈ T.map Prod.fst :=
  (List.perm_insertionSort _ _).mem_iff

/-- Any key has an associated value in the table. -/
theorem exists_pair_of_mem_keys {T : List (Nat × Nat)} {k : Nat}
    (h : k ∈ T.map Prod.fst) : ∃ v, (k, v) ∈ T := by
  rcases List.mem_map.mp h with ⟨⟨a, b⟩, hm, he⟩
  exact ⟨b, by cases he; exact hm⟩

/-- The element reported by `getLast?` is a member. -/
theorem mem_of_getLast?_eq {α : Type} {l : List α} {y : α}
    (h : l.getLast? = some y) : y ∈ l := by
  cases l with
  | nil => simp at h
  | cons a t =>
    have hne : a :: t ≠ [] := by simp
    rw [List.getLast?_eq_getLast _ hne] at h
    have : y = (a :: t).getLast hne := by
      simpa [eq_comm] using h
    rw [this]
    exact List.getLast_mem hne

/-- In a sorted list every member is at most the last element. -/
theorem le_of_sorted_getLast :
    ∀ {l : List Nat}, List.Sorted (· ≤ ·) l →
      ∀ {x : Nat}, x ∈ l → ∀ {y : Nat}, l.getLast? = some y → x ≤ y := by
  intro l
  induction l with
  | nil => intro _ x hx; simp at hx
  | cons a rest ih =>
    intro hs x hx y hy
    obtain ⟨ha, hrest⟩ := List.sorted_cons.mp hs
    cases rest with
    | nil =>
      simp at hx hy
      omega
    | cons b t =>
      have hy2 : (b :: t).getLast? = some y := by
        rw [← List.getLast?_cons_cons]
        exact hy
      rcases List.mem_cons.mp hx with rfl | hx2
      · exact ha y (mem_of_getLast?_eq hy2)
      · exact ih hrest hx2 hy2

/-- The width loop over a sorted key list lands on the last key that is
at most the width (or keeps the initial accumulator when none is). -/
theorem gccLoop_eq_getLast (T : List (Nat × Nat)) (w : Nat) :
    ∀ ks : List Nat, List.Sorted (· ≤ ·) ks → ∀ c : Nat,
      gccLoop T w ks c =
        ((ks.filter (fun k => decide (k ≤ w))).getLast?).elim c
          (lookupD T) := by
  intro ks
  induction ks with
  | nil => intro _ c; rfl
  | cons k rest ih =>
    intro hs c
    obtain ⟨hk, hrest⟩ := List.sorted_cons.mp hs
    by_cases h : k ≤ w
    · rw [List.filter_cons_of_pos (by simpa using h)]
      simp only [gccLoop, if_pos h]
      rw [ih hrest]
      cases hres : rest.filter (fun k => decide (k ≤ w)) with
      | nil => simp
      | cons y l =>
        obtain ⟨z, hz⟩ : ∃ z, (y :: l).getLast? = some z :=
          ⟨(y :: l).getLast (by simp), List.getLast?_eq_getLast _ (by simp)⟩
        rw [List.getLast?_cons_cons, hz]
        simp
    · have hrf : rest.filter (fun x => decide (x ≤ w)) = [] := by
        rw [List.filter_eq_nil_iff]
        intro a ha
        simp only [decide_eq_true_eq]
        intro haw
        exact h (le_trans (hk a ha) haw)
      rw [List.filter_cons_of_neg (by simpa using h), hrf]
      simp [gccLoop, if_neg h]

/-- `getColumnsCount` equals the table value at the last sorted key that
is at most the width, defaulting to 1. -/
theorem getColumnsCount_eq (w : Nat) (T : List (Nat × Nat)) :
    getColumnsCount w T =
      (((sortedKeys T).filter (fun k => decide (k ≤ w))).getLast?).elim 1
        (lookupD T) :=
  gccLoop_eq_getLast T w _ (sortedKeys_sorted T) 1

/-- Membership in a conditional singleton segment of a call trace. -/
theorem mem_ite_singleton {α : Type} (c : Prop) [Decidable c] (a b : α) :
    (a ∈ if c then [b] else []) ↔ c ∧ a = b := by
  split_ifs with h <;> simp [h]

/-- A conditional singleton segment is vacuously pairwise-ordered. -/
theorem pairwise_ite_singleton {α : Type} (r : α → α → Prop) (c : Prop)
    [Decidable c] (b : α) : List.Pairwise r (if c then [b] else []) := by
  split_ifs <;> simp

/-! ### Claim theorems -/

/-- C1: for every width w and breakpoint table T (with duplicate-free keys,
as JS object keys are), `getColumnsCount` returns the column value
associated with the largest key of T that is ≤ w, and returns 1 when no
key is ≤ w; in particular, for the table {300:2, 500:3, 700:5, 900:6} it
returns 2 at width 400, 3 at 600, 6 at 1000 and 1 at 100, and for the
empty table it always returns 1. -/
theorem getColumnsCount_resolves_largest (w : Nat) (T : List (Nat × Nat))
    (hnd : (T.map Prod.fst).Nodup) :
    ((∀ kv ∈ T, w < kv.1) → getColumnsCount w T = 1) ∧
    (∀ k v : Nat, (k, v) ∈ T → k ≤ w →
      (∀ kv ∈ T, kv.1 ≤ w → kv.1 ≤ k) → getColumnsCount w T = v) ∧
    getColumnsCount 400 exampleTable = 2 ∧
    getColumnsCount 600 exampleTable = 3 ∧
    getColumnsCount 1000 exampleTable = 6 ∧
    getColumnsCount 100 exampleTable = 1 ∧
    (∀ u : Nat, getColumnsCount u [] = 1) := by
  refine ⟨?_, ?_, by decide, by decide, by decide, by decide, fun u => rfl⟩
  · intro hall
    rw [getColumnsCount_eq]
    have hnil : (sortedKeys T).filter (fun k => decide (k ≤ w)) = [] := by
      rw [List.filter_eq_nil_iff]
      intro a ha
      rcases exists_pair_of_mem_keys (mem_sortedKeys.mp ha) with ⟨v, hv⟩
      have := hall (a, v) hv
      simp only [decide_eq_true_eq]
      omega
    rw [hnil]
    rfl
  · intro k v hkv hkw hmax
    rw [getColumnsCount_eq]
    set F := (sortedKeys T).filter (fun k => decide (k ≤ w)) with hF
    have hsF : List.Sorted (· ≤ ·) F := (sortedKeys_sorted T).filter _
    have hkF : k ∈ F := by
      rw [hF, List.mem_filter]
      exact ⟨mem_sortedKeys.mpr (List.mem_map_of_mem Prod.fst hkv),
        by simpa using hkw⟩
    have hFne : F ≠ [] := fun hemp => by rw [hemp] at hkF; simp at hkF
    have hlast := List.getLast?_eq_getLast F hFne
    have hgmem : F.getLast hFne ∈ F := List.getLast_mem hFne
    have hgkeys : F.getLast hFne ∈ T.map Prod.fst :=
      mem_sortedKeys.mp (List.mem_filter.mp hgmem).1
    have hgw : F.getLast hFne ≤ w := by
      have := (List.mem_filter.mp hgmem).2
      simpa using this
    rcases exists_pair_of_mem_keys hgkeys with ⟨gv, hgv⟩
    have hgk : F.getLast hFne ≤ k := hmax (F.getLast hFne, gv) hgv hgw
    have hkg : k ≤ F.getLast hFne := le_of_sorted_getLast hsF hkF hlast
    have hgeq : F.getLast hFne = k := le_antisymm hgk hkg
    rw [hlast, hgeq, Option.elim_some, lookupD, lookup_eq_some_of_mem hnd hkv]
    rfl

/-- Witness for C1 at the spec's scenario table: width 400, largest key
≤ 400 is 300 with value 2. -/
theorem getColumnsCount_resolves_largest_witness :
    getColumnsCount 400 exampleTable = 2 :=
  (getColumnsCount_resolves_largest 400 exampleTable (by decide)).2.1 300 2
    (by decide) (by decide) (by decide)

/-- C9 counterexample: the claim that `getColumnsCount` is monotone in the
width for EVERY table fails for the table {300:5, 500:2}, whose values
decrease with the key: width 400 gives 5 but width 600 gives 2. -/
theorem getColumnsCount_not_monotone_cex :
    getColumnsCount 400 [(300, 5), (500, 2)] = 5 ∧
    getColumnsCount 600 [(300, 5), (500, 2)] = 2 ∧
    ¬ (getColumnsCount 400 [(300, 5), (500, 2)] ≤
        getColumnsCount 600 [(300, 5), (500, 2)]) := by
  decide

/-- C9 (amended): for a fixed table whose keys are duplicate-free, whose
column values are all ≥ 1 and non-decreasing in the key, `getColumnsCount`
is monotone non-decreasing in the width. -/
theorem getColumnsCount_monotone (T : List (Nat × Nat)) (w1 w2 : Nat)
    (hnd : (T.map Prod.fst).Nodup)
    (hpos : ∀ kv ∈ T, 1 ≤ kv.2)
    (hmono : ∀ kv ∈ T, ∀ kv2 ∈ T, kv.1 ≤ kv2.1 → kv.2 ≤ kv2.2)
    (hw : w1 ≤ w2) :
    getColumnsCount w1 T ≤ getColumnsCount w2 T := by
  rw [getColumnsCount_eq, getColumnsCount_eq]
  set F1 := (sortedKeys T).filter (fun k => decide (k ≤ w1)) with hF1
  set F2 := (sortedKeys T).filter (fun k => decide (k ≤ w2)) with hF2
  have hsub : ∀ x ∈ F1, x ∈ F2 := by
    intro x hx
    rw [hF1, List.mem_filter] at hx
    rw [hF2, List.mem_filter]
    refine ⟨hx.1, ?_⟩
    have := hx.2
    simp only [decide_eq_true_eq] at this ⊢
    omega
  have hs2 : List.Sorted (· ≤ ·) F2 := (sortedKeys_sorted T).filter _
  have hlook : ∀ {k : Nat}, k ∈ T.map Prod.fst → (k, lookupD T k) ∈ T := by
    intro k hk
    rcases exists_pair_of_mem_keys hk with ⟨v, hv⟩
    have hl := lookup_eq_some_of_mem hnd hv
    simpa [lookupD, hl] using hv
  cases h1 : F1.getLast? with
  | none =>
    cases h2 : F2.getLast? with
    | none => simp
    | some k2 =>
      have hk2 : k2 ∈ F2 := mem_of_getLast?_eq h2
      have hkeys : k2 ∈ T.map Prod.fst :=
        mem_sortedKeys.mp (List.mem_filter.mp hk2).1
      have := hpos (k2, lookupD T k2) (hlook hkeys)
      simpa using this
  | some k1 =>
    have hk1F1 : k1 ∈ F1 := mem_of_getLast?_eq h1
    have hk1F2 : k1 ∈ F2 := hsub _ hk1F1
    have hF2ne : F2 ≠ [] := fun hemp => by rw [hemp] at hk1F2; simp at hk1F2
    have h2 := List.getLast?_eq_getLast F2 hF2ne
    have hk2F2 : F2.getLast hF2ne ∈ F2 := List.getLast_mem hF2ne
    have hle : k1 ≤ F2.getLast hF2ne := le_of_sorted_getLast hs2 hk1F2 h2
    have hm1 : k1 ∈ T.map Prod.fst :=
      mem_sortedKeys.mp (List.mem_filter.mp hk1F1).1
    have hm2 : F2.getLast hF2ne ∈ T.map Prod.fst :=
      mem_sortedKeys.mp (List.mem_filter.mp hk2F2).1
    have hv := hmono (k1, lookupD T k1) (hlook hm1)
      (F2.getLast hF2ne, lookupD T (F2.getLast hF2ne)) (hlook hm2) hle
    rw [h2]
    simpa using hv

/-- Witness for C9 (amended) on the spec's scenario table, which is
monotone with values ≥ 1: resolving at 400 gives at most resolving
at 600. -/
theorem getColumnsCount_monotone_witness :
    getColumnsCount 400 exampleTable ≤ getColumnsCount 600 exampleTable :=
  getColumnsCount_monotone exampleTable 400 600 (by decide) (by decide)
    (by decide) (by decide)

/-- C2: diffing a child list against itself, when all its (distinct DOM)
nodes are attached, yields empty removed/appended/prepended/moved lists
and no forced reload; and after any diff the retained known-children
snapshot is exactly the current list. -/
theorem diffDomChildren_identity (attached : Nat → Bool) (K : List Nat)
    (hatt : ∀ x ∈ K, attached x = true) (hnd : K.Nodup) :
    ((diffDomChildren attached K K).1.removed = [] ∧
     (diffDomChildren attached K K).1.appended = [] ∧
     (diffDomChildren attached K K).1.prepended = [] ∧
     (diffDomChildren attached K K).1.moved = [] ∧
     (diffDomChildren attached K K).1.forceItemReload = false) ∧
    (∀ C, (diffDomChildren attached K C).2 = C) := by
  have hfilter : K.filter attached = K := List.filter_eq_self.mpr hatt
  have hmemnil : K.filter (fun c => decide (jsIndexOf c K = -1)) = [] := by
    rw [List.filter_eq_nil_iff]
    intro a ha
    simp [jsIndexOf_eq_neg_one_iff, ha]
  have hmoved : (K.enum.filter
      (fun p => decide ((p.1 : Int) ≠ jsIndexOf p.2 K))).map Prod.snd = [] := by
    rw [List.map_eq_nil_iff, List.filter_eq_nil_iff]
    intro p hp
    have hget := List.mem_enum_iff_getElem?.mp hp
    rcases List.getElem?_eq_some.mp hget with ⟨hlt, hval⟩
    have := jsIndexOf_getElem hnd p.1 hlt
    rw [hval] at this
    simp [this]
  refine ⟨?_, fun C => rfl⟩
  simp only [diffDomChildren, hfilter, hmemnil, hmoved]
  simp [prependedLoop]

/-- Witness for C2 at a concrete two-child list with everything
attached. -/
theorem diffDomChildren_identity_witness :
    (diffDomChildren (fun _ => true) [0, 1] [0, 1]).1.moved = [] ∧
    (diffDomChildren (fun _ => true) [0, 1] [2, 3]).2 = [2, 3] :=
  ⟨((diffDomChildren_identity (fun _ => true) [0, 1] (by decide)
      (by decide)).1).2.2.2.1,
   (diffDomChildren_identity (fun _ => true) [0, 1] (by decide)
      (by decide)).2 [2, 3]⟩

/-- C3 counterexample: with an empty known list, the code classifies every
current child as PREPENDED, not appended — the running-counter loop
matches every position.  At current = [0] the claimed appended = [0] and
prepended = [] both fail. -/
theorem diffDomChildren_empty_known_cex :
    ¬ ((diffDomChildren (fun _ => true) [] [0]).1.appended = [0] ∧
       (diffDomChildren (fun _ => true) [] [0]).1.prepended = []) := by
  decide

/-- C3 (amended): with an empty known list (the first-run case) and a
duplicate-free current child list C, the diff returns prepended = C and
appended = [], regardless of C's contents. -/
theorem diffDomChildren_empty_known (attached : Nat → Bool) (C : List Nat)
    (hnd : C.Nodup) :
    (diffDomChildren attached [] C).1.prepended = C ∧
    (diffDomChildren attached [] C).1.appended = [] := by
  have hnew : C.filter (fun c => decide (jsIndexOf c ([] : List Nat) = -1)) =
      C := by
    rw [List.filter_eq_self]
    intro a _
    simp [jsIndexOf]
  have hloop : prependedLoop C C 0 = C := by
    have := prependedLoop_all hnd C [] rfl
    simpa using this
  have happ : C.filter (fun el => decide (jsIndexOf el C = -1)) = [] := by
    rw [List.filter_eq_nil_iff]
    intro a ha
    simp [jsIndexOf_eq_neg_one_iff, ha]
  simp only [diffDomChildren, List.filter_nil, hnew, hloop, happ]
  exact ⟨trivial, trivial⟩

/-- Witness for C3 (amended) at a concrete three-child first run. -/
theorem diffDomChildren_empty_known_witness :
    (diffDomChildren (fun _ => true) [] [5, 6, 7]).1.prepended = [5, 6, 7] ∧
    (diffDomChildren (fun _ => true) [] [5, 6, 7]).1.appended = [] :=
  diffDomChildren_empty_known (fun _ => true) [5, 6, 7] (by decide)

/-- C4: if any known child is detached (has no live parent), the diff
forces a full item reload, whatever the current list is. -/
theorem diffDomChildren_detached_forces_reload (attached : Nat → Bool)
    (K C : List Nat) (hdet : ∃ x ∈ K, attached x = false) :
    (diffDomChildren attached K C).1.forceItemReload = true := by
  have hlt : (K.filter attached).length < K.length := by
    rw [List.length_filter_lt_length_iff_exists]
    rcases hdet with ⟨x, hx, hfalse⟩
    exact ⟨x, hx, by simp [hfalse]⟩
  simp only [diffDomChildren]
  rw [if_pos (by omega)]

/-- Witness for C4: a single detached known child. -/
theorem diffDomChildren_detached_forces_reload_witness :
    (diffDomChildren (fun _ => false) [0] []).1.forceItemReload = true :=
  diffDomChildren_detached_forces_reload (fun _ => false) [0] []
    ⟨0, by decide, rfl⟩

/-- C10 (implicit converse of C4): if no known child is detached, the diff
never forces a full item reload, for every current list. -/
theorem diffDomChildren_no_detach_no_reload (attached : Nat → Bool)
    (K : List Nat) (hatt : ∀ x ∈ K, attached x = true) (C : List Nat) :
    (diffDomChildren attached K C).1.forceItemReload = false := by
  have hfilter : K.filter attached = K := List.filter_eq_self.mpr hatt
  simp only [diffDomChildren, hfilter]
  rw [if_neg (by omega)]

/-- Witness for C10: attached known children, reordered current list. -/
theorem diffDomChildren_no_detach_no_reload_witness :
    (diffDomChildren (fun _ => true) [0, 1] [1, 0]).1.forceItemReload =
      false :=
  diffDomChildren_no_detach_no_reload (fun _ => true) [0, 1] (by decide)
    [1, 0]

/-- C6: when every still-attached known child occurs in the current list
(the structural situation when both enumerate the same live parent's
children), the removed list is empty. -/
theorem diffDomChildren_removed_empty (attached : Nat → Bool)
    (K C : List Nat) (hocc : ∀ x ∈ K, attached x = true → x ∈ C) :
    (diffDomChildren attached K C).1.removed = [] := by
  simp only [diffDomChildren]
  rw [List.filter_eq_nil_iff]
  intro a ha
  have hmem := List.mem_filter.mp ha
  have haC : a ∈ C := hocc a hmem.1 hmem.2
  simp [jsIndexOf_eq_neg_one_iff, haC]

/-- Witness for C6: one attached known child present in current. -/
theorem diffDomChildren_removed_empty_witness :
    (diffDomChildren (fun _ => true) [4] [4, 5]).1.removed = [] :=
  diffDomChildren_removed_empty (fun _ => true) [4] [4, 5]
    (by decide)

/-- C5 counterexample: for known [1,2,3] (all attached) and current
[0,1,2,3], the code returns moved = [1,2,3], not the claimed moved = []:
each surviving child's index in the still-attached list differs from its
index in the current list once a node is prepended. -/
theorem diffDomChildren_single_prepend_cex :
    (diffDomChildren (fun _ => true) [1, 2, 3] [0, 1, 2, 3]).1.moved =
      [1, 2, 3] ∧
    ¬ (diffDomChildren (fun _ => true) [1, 2, 3] [0, 1, 2, 3]).1.moved =
      [] := by
  decide

/-- C5 (amended): for known [a,b,c] all attached and current [x,a,b,c]
with x a new node (all four distinct), the diff returns prepended = [x]
and appended = [], but moved = [a,b,c] rather than []. -/
theorem diffDomChildren_single_prepend (attached : Nat → Bool)
    (a b c x : Nat)
    (ha : attached a = true) (hb : attached b = true)
    (hc : attached c = true)
    (hxa : x ≠ a) (hxb : x ≠ b) (hxc : x ≠ c)
    (hab : a ≠ b) (hac : a ≠ c) (hbc : b ≠ c) :
    (diffDomChildren attached [a, b, c] [x, a, b, c]).1.prepended = [x] ∧
    (diffDomChildren attached [a, b, c] [x, a, b, c]).1.appended = [] ∧
    (diffDomChildren attached [a, b, c] [x, a, b, c]).1.moved =
      [a, b, c] := by
  simp [diffDomChildren, jsIndexOf, prependedLoop, List.enum,
    List.enumFrom, ha, hb, hc, hxa, hxb, hxc, hab, hac, hbc,
    Ne.symm hxa, Ne.symm hxb, Ne.symm hxc, Ne.symm hab, Ne.symm hac,
    Ne.symm hbc]

/-- Witness for C5 (amended) at concrete nodes 1, 2, 3 and new node 0. -/
theorem diffDomChildren_single_prepend_witness :
    (diffDomChildren (fun _ => true) [1, 2, 3] [0, 1, 2, 3]).1.prepended =
      [0] ∧
    (diffDomChildren (fun _ => true) [1, 2, 3] [0, 1, 2, 3]).1.appended =
      [] ∧
    (diffDomChildren (fun _ => true) [1, 2, 3] [0, 1, 2, 3]).1.moved =
      [1, 2, 3] :=
  diffDomChildren_single_prepend (fun _ => true) 1 2 3 0 rfl rfl rfl
    (by decide) (by decide) (by decide) (by decide) (by decide) (by decide)

/-- C7: in every Active-state update, `performLayout` issues the engine's
full item-list reload if and only if the diff forced it, or moved is
non-empty, or appended is non-empty with prepended empty, or removed is
non-empty; and the engine's layout pass is always issued afterward. -/
theorem performLayout_reload_iff (attached : Nat → Bool)
    (known current : List Nat) :
    (EngineCall.reloadItems ∈ (performLayout attached known current).1 ↔
      ((diffDomChildren attached known current).1.forceItemReload = true ∨
       (diffDomChildren attached known current).1.moved ≠ [] ∨
       ((diffDomChildren attached known current).1.appended ≠ [] ∧
        (diffDomChildren attached known current).1.prepended = []) ∨
       (diffDomChildren attached known current).1.removed ≠ [])) ∧
    (performLayout attached known current).1.getLast? =
      some EngineCall.layout := by
  constructor
  · simp only [performLayout, List.mem_append, mem_ite_singleton,
      List.mem_singleton]
    simp [List.length_pos, List.length_eq_zero]
    tauto
  · show (_ ++ [EngineCall.layout]).getLast? = some EngineCall.layout
    exact List.getLast?_concat _

/-- C8: within one update pass the engine calls are issued in a fixed
order: no insertion (`appended`/`prepended`) ever precedes a removal, no
`prepended` call precedes an `appended` call, and the `layout` call is the
last operation of the pass. -/
theorem performLayout_call_order (attached : Nat → Bool)
    (known current : List Nat) :
    List.Pairwise (fun c d => ¬ (isInsertCall c ∧ isRemoveCall d))
      (performLayout attached known current).1 ∧
    List.Pairwise (fun c d => ¬ (isPrependedCall c ∧ isAppendedCall d))
      (performLayout attached known current).1 ∧
    (performLayout attached known current).1.getLast? =
      some EngineCall.layout := by
  refine ⟨?_, ?_, ?_⟩
  · simp only [performLayout]
    simp [List.pairwise_append, pairwise_ite_singleton, mem_ite_singleton,
      isInsertCall, isRemoveCall]
    constructor <;> intro h b hb <;> rcases hb with ⟨-, rfl⟩ | hb2 <;>
      first
        | simp [isRemoveCall]
        | (rcases hb2 with ⟨-, rfl⟩ | rfl <;> simp [isRemoveCall])
  · simp only [performLayout]
    simp [List.pairwise_append, pairwise_ite_singleton, mem_ite_singleton,
      isPrependedCall, isAppendedCall]
    intro h b hb
    rcases hb with ⟨-, rfl⟩ | rfl <;> simp [isAppendedCall]
  · show (_ ++ [EngineCall.layout]).getLast? = some EngineCall.layout
    exact List.getLast?_concat _

end RMC
